import Mathlib

/-!
Verification of the Dirichlet-multinomial posterior update and top-category
decision module of this repository
(`notebooks/dirichlet-multinomial-sequencing-read-counts.ipynb`).

The notebook defines, for integer read counts per category:

* `kth_largest(a, k) = np.sort(a)[-k]`;
* `keep_largest_test(read_counts)`, which forms the posterior concentration
  `np.ones(n) + read_counts`, builds the Beta marginals
  `beta(m, sum(posterior) - m)` of the largest and second-largest posterior
  concentrations, takes their quantiles at `[0.025, 0.975]` via `beta.ppf`,
  and returns `True` iff the lower quantile of the largest strictly exceeds
  the upper quantile of the second largest.

The embedding models the exact real semantics of these computations: the
Beta distribution's CDF is the normalized incomplete Beta integral, and
`beta(a, b).ppf(q)` is its generalized inverse.  For the positive integer
shape parameters that occur in this module the CDF is proved equal to a
binomial survival sum, which allows the concrete decision scenarios to be
settled by exact natural-number arithmetic.

The specification additionally describes operations `compute_posterior`,
`marginal_for_category`, `credible_interval` and `keep_top_category` with
explicit priors, configurable quantiles and `InvalidInputError` validation;
those generalizations have no implementation under src/ (the notebook only
executes the default-prior, fixed-quantile special case inline), and are
modelled from the spec where so documented.
-/

open MeasureTheory Set

/-- Error kinds of the module.  `invalidInput` and `numericComputation` are the
spec's `InvalidInputError` and `NumericComputationError`; `indexError` models
the Python `IndexError` that the notebook's `kth_largest` raises on
out-of-range negative indexing (`np.sort(a)[-k]` with `k > len(a)`). -/
inductive Err where
  | invalidInput
  | numericComputation
  | indexError
deriving DecidableEq, Repr

/-- Binomial coefficient via the falling-factorial formula
`n! / (k! (n-k)!) = descFactorial n k / k!`.  This form evaluates in the
kernel by a linear number of multiplications, unlike `Nat.choose`'s Pascal
recursion; `binom_eq_choose` identifies it with `Nat.choose`. -/
def binom (n k : ℕ) : ℕ := n.descFactorial k / k.factorial

theorem binom_eq_choose (n k : ℕ) : binom n k = n.choose k :=
  (Nat.choose_eq_descFactorial_div_factorial n k).symm

/-- Embedding of the notebook's `kth_largest(a, k) = np.sort(a)[-k]`.
`np.sort` sorts ascending (embedded as a stable insertion sort); Python
negative indexing `a[-k]` denotes `a[len(a) - k]` when `1 ≤ k ≤ len(a)`,
`a[0]` when `k = 0` (since `-0 = 0`), and raises `IndexError` (here: `none`)
when `k > len(a)`. -/
def kth_largest {α : Type} [LinearOrder α] (a : List α) (k : ℕ) : Option α :=
  let s := List.insertionSort (fun x y => x ≤ y) a
  if k = 0 then s[0]? else if k ≤ s.length then s[s.length - k]? else none

/-- Posterior concentration of the notebook's default-prior update:
`prior_counts = np.ones(len(read_counts)); posterior_counts = prior_counts + read_counts`.
Read counts are non-negative integers, so each posterior entry is the integer
`count + 1`; the float arithmetic of the source is exact on these values. -/
def posterior_counts (read_counts : List ℕ) : List ℕ :=
  read_counts.map (fun c => c + 1)

/-- Density kernel `t^(a-1) * (1-t)^(b-1)` of the Beta distribution with
shape parameters `a`, `b` (real powers). -/
noncomputable def betaPDFkernel (a b : ℚ) (t : ℝ) : ℝ :=
  t ^ ((a : ℝ) - 1) * (1 - t) ^ ((b : ℝ) - 1)

/-- Normalizing constant `B(a, b)` of the Beta distribution. -/
noncomputable def betaNorm (a b : ℚ) : ℝ :=
  ∫ t in (0:ℝ)..1, betaPDFkernel a b t

/-- Cumulative distribution function of `Beta(a, b)` (scipy `beta(a, b).cdf`):
the regularized incomplete Beta integral. -/
noncomputable def betaCDF (a b : ℚ) (x : ℝ) : ℝ :=
  (∫ t in (0:ℝ)..x, betaPDFkernel a b t) / betaNorm a b

/-- Percent-point (quantile) function of `Beta(a, b)` (scipy `beta(a, b).ppf`):
the generalized inverse of the CDF restricted to `[0, 1]`.  For the strictly
increasing continuous CDFs of this module it is the exact inverse. -/
noncomputable def betaPPF (a b : ℚ) (q : ℝ) : ℝ :=
  sInf {x : ℝ | x ∈ Icc (0:ℝ) 1 ∧ q ≤ betaCDF a b x}

open Classical in
/-- Embedding of the notebook's `keep_largest_test(read_counts)`: form the
posterior concentration, take its largest and second-largest values `max1`,
`max2`, build the Beta marginals `beta(m, sum(posterior_counts) - m)`, take
their quantiles at `[0.025, 0.975]`, and return `True` iff the lower quantile
of `max1`'s marginal strictly exceeds the upper quantile of `max2`'s.
With fewer than two categories the `np.sort(a)[-2]` lookup raises
`IndexError`. -/
noncomputable def keep_largest_test (read_counts : List ℕ) : Except Err Bool :=
  let pc := posterior_counts read_counts
  match kth_largest pc 1, kth_largest pc 2 with
  | some max1, some max2 =>
    let total : ℚ := (pc.sum : ℚ)
    let max1l := betaPPF (max1 : ℚ) (total - (max1 : ℚ)) (0.025 : ℝ)
    let max1u := betaPPF (max1 : ℚ) (total - (max1 : ℚ)) (0.975 : ℝ)
    let max2l := betaPPF (max2 : ℚ) (total - (max2 : ℚ)) (0.025 : ℝ)
    let max2u := betaPPF (max2 : ℚ) (total - (max2 : ℚ)) (0.975 : ℝ)
    if max1l > max2u then .ok true else .ok false
  | _, _ => .error .indexError

/-- Modelled from the spec: `compute_posterior(counts, prior=None)` (§4.1).
The notebook executes only the default-prior instance inline
(`prior_counts = np.ones(len(read_counts)); posterior_counts = prior_counts + read_counts`);
the explicit-prior generalization and the `InvalidInputError` validation
(length mismatch, zero categories, negative count, non-positive prior entry)
are specified but have no implementation under src/.  Output is the
elementwise sum `prior[i] + counts[i]`. -/
def compute_posterior (counts : List ℤ) (prior : Option (List ℚ)) : Except Err (List ℚ) :=
  let p := prior.getD (List.replicate counts.length 1)
  if p.length = counts.length ∧ counts.length ≠ 0 ∧ (∀ c ∈ counts, 0 ≤ c) ∧ (∀ a ∈ p, 0 < a)
  then .ok (List.zipWith (fun (a : ℚ) (c : ℤ) => a + (c : ℚ)) p counts)
  else .error .invalidInput

/-- Descriptor of a Beta-distributed marginal: its two shape parameters. -/
structure MarginalDistribution where
  a : ℚ
  b : ℚ
deriving DecidableEq, Repr

/-- Modelled from the spec: `marginal_for_category(posterior_concentration, index)`
(§4.1); the notebook builds the same parameters inline as
`beta(count, posterior_counts.sum() - count)`.  Returns the Beta descriptor
`(a, b) = (posterior[index], sum(posterior) - posterior[index])`, failing with
`InvalidInputError` on an out-of-range index. -/
def marginal_for_category (posterior_concentration : List ℚ) (index : ℕ) :
    Except Err MarginalDistribution :=
  if h : index < posterior_concentration.length then
    .ok ⟨posterior_concentration.get ⟨index, h⟩,
         posterior_concentration.sum - posterior_concentration.get ⟨index, h⟩⟩
  else .error .invalidInput

/-- Modelled from the spec: `credible_interval(marginal, quantiles)` (§4.1);
the notebook computes the same pair inline as `dist.ppf([0.025, 0.975])`.
Validates `0 < lower < upper < 1` (else `InvalidInputError`, §7) and returns
the two quantiles of the marginal's CDF. -/
noncomputable def credible_interval (marginal : MarginalDistribution) (quantiles : ℚ × ℚ) :
    Except Err (ℝ × ℝ) :=
  if 0 < quantiles.1 ∧ quantiles.1 < quantiles.2 ∧ quantiles.2 < 1
  then .ok (betaPPF marginal.a marginal.b ((quantiles.1 : ℝ)),
            betaPPF marginal.a marginal.b ((quantiles.2 : ℝ)))
  else .error .invalidInput

open Classical in
/-- Modelled from the spec: `keep_top_category(counts, prior=None, quantiles=(0.025, 0.975))`
(§4.1), the validated, prior- and quantile-configurable generalization of the
notebook's `keep_largest_test`.  Computes the posterior via `compute_posterior`,
fails with `InvalidInputError` when there is no runner-up (n < 2), builds the
marginals of the largest and second-largest posterior concentrations, computes
their credible intervals, and returns `true` iff the lower bound of the top
marginal's interval strictly exceeds the upper bound of the runner-up's. -/
noncomputable def keep_top_category (counts : List ℤ) (prior : Option (List ℚ))
    (quantiles : ℚ × ℚ) : Except Err Bool :=
  match compute_posterior counts prior with
  | .error e => .error e
  | .ok post =>
    match kth_largest post 1, kth_largest post 2 with
    | some max1, some max2 =>
      match credible_interval ⟨max1, post.sum - max1⟩ quantiles,
            credible_interval ⟨max2, post.sum - max2⟩ quantiles with
      | .ok i1, .ok i2 => if i1.1 > i2.2 then .ok true else .ok false
      | .error e, _ => .error e
      | .ok _, .error e => .error e
    | _, _ => .error .invalidInput

/-- Binomial survival sum `∑_{j=a}^{n} C(n,j) x^j (1-x)^(n-j)`: the closed form
of the `Beta(a, n+1-a)` CDF for positive integer shapes (proved below). -/
noncomputable def binomTail (n a : ℕ) (x : ℝ) : ℝ :=
  ∑ j ∈ Finset.Icc a n, (binom n j : ℝ) * (x ^ j * (1 - x) ^ (n - j))

/-- Numerator of `binomTail` at the rational point `p/q`:
`∑_{j=a}^{n} C(n,j) p^j (q-p)^(n-j)`, a pure natural-number value suitable for
exact kernel evaluation. -/
def binomTailNum (n a p q : ℕ) : ℕ :=
  ∑ j ∈ Finset.Icc a n, binom n j * (p ^ j * (q - p) ^ (n - j))

/-! Integrability and positivity of the Beta kernel for positive shapes. -/

theorem betaPDFkernel_nonneg (a b : ℚ) {t : ℝ} (h0 : 0 ≤ t) (h1 : t ≤ 1) :
    0 ≤ betaPDFkernel a b t :=
  mul_nonneg (Real.rpow_nonneg h0 _) (Real.rpow_nonneg (by linarith) _)

theorem betaPDFkernel_intervalIntegrable_left (a b : ℚ) (ha : 0 < a) :
    IntervalIntegrable (betaPDFkernel a b) volume 0 (1/2) := by
  apply IntervalIntegrable.mul_continuousOn
  · apply intervalIntegral.intervalIntegrable_rpow'
    have h : (0:ℝ) < (a:ℝ) := by exact_mod_cast ha
    linarith
  · apply continuousOn_of_forall_continuousAt
    intro x hx
    rw [uIcc_of_le (by norm_num : (0:ℝ) ≤ 1/2)] at hx
    apply ContinuousAt.rpow_const
    · exact (continuous_const.sub continuous_id).continuousAt
    · left
      have h2 : x ≤ 1/2 := hx.2
      have : (0:ℝ) < 1 - x := by linarith
      exact ne_of_gt this

theorem betaPDFkernel_intervalIntegrable (a b : ℚ) (ha : 0 < a) (hb : 0 < b) :
    IntervalIntegrable (betaPDFkernel a b) volume 0 1 := by
  refine (betaPDFkernel_intervalIntegrable_left a b ha).trans ?_
  rw [IntervalIntegrable.iff_comp_neg]
  have h := (betaPDFkernel_intervalIntegrable_left b a hb).comp_add_right 1
  convert h.symm using 1
  · funext x
    simp only [betaPDFkernel]
    rw [mul_comm]
    congr 1
    · congr 1
      ring
    · congr 1
      ring
  · norm_num
  · norm_num

theorem betaNorm_pos (a b : ℚ) (ha : 0 < a) (hb : 0 < b) : 0 < betaNorm a b := by
  unfold betaNorm
  apply intervalIntegral.intervalIntegral_pos_of_pos_on
    (betaPDFkernel_intervalIntegrable a b ha hb)
  · intro x hx
    unfold betaPDFkernel
    have h1 : (0:ℝ) < x := hx.1
    have h2 : (0:ℝ) < 1 - x := by linarith [hx.2]
    exact mul_pos (Real.rpow_pos_of_pos h1 _) (Real.rpow_pos_of_pos h2 _)
  · norm_num

theorem betaCDF_one (a b : ℚ) (ha : 0 < a) (hb : 0 < b) : betaCDF a b 1 = 1 := by
  unfold betaCDF
  rw [show (∫ t in (0:ℝ)..1, betaPDFkernel a b t) = betaNorm a b from rfl]
  exact div_self (ne_of_gt (betaNorm_pos a b ha hb))

/-! Structural properties of the quantile function. -/

theorem ppfSet_bddBelow (a b : ℚ) (q : ℝ) :
    BddBelow {x : ℝ | x ∈ Icc (0:ℝ) 1 ∧ q ≤ betaCDF a b x} :=
  ⟨0, fun x hx => hx.1.1⟩

theorem one_mem_ppfSet (a b : ℚ) (ha : 0 < a) (hb : 0 < b) {q : ℝ} (hq : q ≤ 1) :
    (1:ℝ) ∈ {x : ℝ | x ∈ Icc (0:ℝ) 1 ∧ q ≤ betaCDF a b x} :=
  ⟨⟨zero_le_one, le_refl 1⟩, by rw [betaCDF_one a b ha hb]; exact hq⟩

theorem betaPPF_nonneg (a b : ℚ) (q : ℝ) : 0 ≤ betaPPF a b q :=
  Real.sInf_nonneg (fun _ hx => hx.1.1)

theorem betaPPF_le (a b : ℚ) {q t : ℝ} (ht : t ∈ Icc (0:ℝ) 1) (h : q ≤ betaCDF a b t) :
    betaPPF a b q ≤ t :=
  csInf_le (ppfSet_bddBelow a b q) ⟨ht, h⟩

theorem betaPPF_le_one (a b : ℚ) (ha : 0 < a) (hb : 0 < b) {q : ℝ} (hq : q ≤ 1) :
    betaPPF a b q ≤ 1 :=
  csInf_le (ppfSet_bddBelow a b q) (one_mem_ppfSet a b ha hb hq)

theorem betaPPF_q_mono (a b : ℚ) (ha : 0 < a) (hb : 0 < b) {ql qu : ℝ}
    (h : ql ≤ qu) (hu : qu ≤ 1) : betaPPF a b ql ≤ betaPPF a b qu :=
  csInf_le_csInf (ppfSet_bddBelow a b ql) ⟨1, one_mem_ppfSet a b ha hb hu⟩
    (fun _ hx => ⟨hx.1, le_trans h hx.2⟩)

/-! Closed form of the Beta CDF for positive integer shapes: derivative of the
binomial survival sum telescopes to the Beta density, so the CDF equals the
sum by the fundamental theorem of calculus. -/

/-- Derivative value of the `j`-th tail: `j * C(n,j) * x^(j-1) * (1-x)^(n-j)`. -/
noncomputable def binomTermDeriv (n j : ℕ) (x : ℝ) : ℝ :=
  (j : ℝ) * (binom n j : ℝ) * (x ^ (j - 1) * (1 - x) ^ (n - j))

theorem hasDerivAt_binomTerm (n j : ℕ) (x : ℝ) :
    HasDerivAt (fun y : ℝ => (binom n j : ℝ) * (y ^ j * (1 - y) ^ (n - j)))
      (binomTermDeriv n j x - binomTermDeriv n (j + 1) x) x := by
  have hbase : HasDerivAt (fun y : ℝ => 1 - y) (-1 : ℝ) x := by
    simpa using (hasDerivAt_const x (1:ℝ)).sub (hasDerivAt_id x)
  have hpow2 : HasDerivAt (fun y : ℝ => (1 - y) ^ (n - j))
      (((n - j : ℕ) : ℝ) * (1 - x) ^ (n - j - 1) * (-1)) x := by
    simpa [Function.comp] using (hasDerivAt_pow (n - j) (1 - x)).comp x hbase
  have h := ((hasDerivAt_pow j x).mul hpow2).const_mul ((binom n j : ℝ))
  convert h using 1
  unfold binomTermDeriv
  have keyNat : binom n j * (n - j) = (j + 1) * binom n (j + 1) := by
    rw [binom_eq_choose, binom_eq_choose, ← Nat.choose_succ_right_eq]
    exact Nat.mul_comm _ _
  have key : (binom n j : ℝ) * ((n - j : ℕ) : ℝ)
      = ((j + 1 : ℕ) : ℝ) * (binom n (j + 1) : ℝ) := by
    exact_mod_cast keyNat
  rw [Nat.sub_sub] at h ⊢
  simp only [Nat.add_sub_cancel]
  push_cast at key ⊢
  linear_combination (x ^ j * (1 - x) ^ (n - (j + 1))) * key

theorem binomTermDeriv_top (n : ℕ) (x : ℝ) : binomTermDeriv n (n + 1) x = 0 := by
  unfold binomTermDeriv
  rw [binom_eq_choose, Nat.choose_eq_zero_of_lt (by omega)]
  norm_num

theorem binomTermDeriv_telescope (n a : ℕ) (han : a ≤ n) (x : ℝ) :
    ∑ j ∈ Finset.Icc a n, (binomTermDeriv n j x - binomTermDeriv n (j + 1) x)
      = binomTermDeriv n a x := by
  rw [← Nat.Ico_succ_right, Finset.sum_Ico_eq_sum_range]
  simp only [Nat.succ_eq_add_one, Nat.add_assoc]
  have h0 := Finset.sum_range_sub' (fun i => binomTermDeriv n (a + i) x) (n + 1 - a)
  rw [h0]
  have h1 : a + (n + 1 - a) = n + 1 := by omega
  rw [h1, Nat.add_zero, binomTermDeriv_top, sub_zero]

theorem hasDerivAt_binomTail (n a : ℕ) (han : a ≤ n) (x : ℝ) :
    HasDerivAt (binomTail n a) (binomTermDeriv n a x) x := by
  have h := HasDerivAt.sum (fun j (_ : j ∈ Finset.Icc a n) => hasDerivAt_binomTerm n j x)
  rw [binomTermDeriv_telescope n a han x] at h
  exact h

theorem binomTail_zero (n a : ℕ) (ha : 1 ≤ a) : binomTail n a 0 = 0 := by
  unfold binomTail
  apply Finset.sum_eq_zero
  intro j hj
  have hj1 : j ≠ 0 := by
    have := (Finset.mem_Icc.mp hj).1
    omega
  rw [zero_pow hj1]
  ring

theorem binomTail_one (n a : ℕ) (han : a ≤ n) : binomTail n a 1 = 1 := by
  unfold binomTail
  rw [Finset.sum_eq_single n]
  · rw [binom_eq_choose, Nat.choose_self]
    norm_num
  · intro j hj hne
    have hjn : j < n := lt_of_le_of_ne (Finset.mem_Icc.mp hj).2 hne
    rw [show (1:ℝ) - 1 = 0 from by ring, zero_pow (by omega : n - j ≠ 0)]
    ring
  · intro hn
    exact absurd (Finset.mem_Icc.mpr ⟨han, le_refl n⟩) hn

theorem binomTermDeriv_continuous (n a : ℕ) : Continuous (fun t : ℝ => binomTermDeriv n a t) := by
  unfold binomTermDeriv
  continuity

theorem binomTermDeriv_nonneg (n a : ℕ) {t : ℝ} (h0 : 0 ≤ t) (h1 : t ≤ 1) :
    0 ≤ binomTermDeriv n a t := by
  unfold binomTermDeriv
  have h2 : (0:ℝ) ≤ 1 - t := by linarith
  positivity

theorem binomTail_eq_integral (n a : ℕ) (ha : 1 ≤ a) (han : a ≤ n) (x : ℝ) :
    ∫ t in (0:ℝ)..x, binomTermDeriv n a t = binomTail n a x := by
  rw [intervalIntegral.integral_eq_sub_of_hasDerivAt
      (fun t _ => hasDerivAt_binomTail n a han t)
      ((binomTermDeriv_continuous n a).intervalIntegrable 0 x)]
  rw [binomTail_zero n a ha, sub_zero]

theorem betaPDFkernel_nat (a b : ℕ) (ha : 1 ≤ a) (hb : 1 ≤ b) (t : ℝ) :
    betaPDFkernel (a : ℚ) (b : ℚ) t = t ^ (a - 1) * (1 - t) ^ (b - 1) := by
  unfold betaPDFkernel
  have hca : (((a : ℚ)) : ℝ) - 1 = ((a - 1 : ℕ) : ℝ) := by
    rw [Nat.cast_sub ha]
    push_cast
    ring
  have hcb : (((b : ℚ)) : ℝ) - 1 = ((b - 1 : ℕ) : ℝ) := by
    rw [Nat.cast_sub hb]
    push_cast
    ring
  rw [hca, hcb, Real.rpow_natCast, Real.rpow_natCast]

theorem binom_center_pos (a b : ℕ) (ha : 1 ≤ a) (hb : 1 ≤ b) :
    (0:ℝ) < (a : ℝ) * (binom (a + b - 1) a : ℝ) := by
  have h1 : (0:ℝ) < (a : ℝ) := by exact_mod_cast Nat.lt_of_lt_of_le Nat.zero_lt_one ha
  have h2 : 0 < binom (a + b - 1) a := by
    rw [binom_eq_choose]
    exact Nat.choose_pos (by omega)
  have h2R : (0:ℝ) < (binom (a + b - 1) a : ℝ) := by exact_mod_cast h2
  exact mul_pos h1 h2R

theorem integral_betaPDFkernel_nat (a b : ℕ) (ha : 1 ≤ a) (hb : 1 ≤ b) (y : ℝ) :
    (∫ t in (0:ℝ)..y, betaPDFkernel (a:ℚ) (b:ℚ) t)
      = binomTail (a + b - 1) a y / ((a : ℝ) * (binom (a + b - 1) a : ℝ)) := by
  have hC := binom_center_pos a b ha hb
  have hker : (fun t : ℝ => betaPDFkernel (a:ℚ) (b:ℚ) t)
      = fun t : ℝ => t ^ (a - 1) * (1 - t) ^ ((a + b - 1) - a) := by
    funext t
    rw [betaPDFkernel_nat a b ha hb, show (a + b - 1) - a = b - 1 from by omega]
  rw [hker, eq_div_iff (ne_of_gt hC), mul_comm]
  rw [← intervalIntegral.integral_const_mul]
  have heq : (fun t : ℝ => (a : ℝ) * (binom (a + b - 1) a : ℝ) * (t ^ (a - 1) * (1 - t) ^ ((a + b - 1) - a)))
      = fun t : ℝ => binomTermDeriv (a + b - 1) a t := by
    funext t
    unfold binomTermDeriv
    ring
  rw [heq]
  exact binomTail_eq_integral (a + b - 1) a ha (by omega) y

theorem betaNorm_nat (a b : ℕ) (ha : 1 ≤ a) (hb : 1 ≤ b) :
    betaNorm (a:ℚ) (b:ℚ) = 1 / ((a : ℝ) * (binom (a + b - 1) a : ℝ)) := by
  unfold betaNorm
  rw [integral_betaPDFkernel_nat a b ha hb 1, binomTail_one (a + b - 1) a (by omega)]

theorem betaCDF_nat (a b : ℕ) (ha : 1 ≤ a) (hb : 1 ≤ b) (x : ℝ) :
    betaCDF (a : ℚ) (b : ℚ) x = binomTail (a + b - 1) a x := by
  have hC := binom_center_pos a b ha hb
  unfold betaCDF
  rw [integral_betaPDFkernel_nat a b ha hb x, betaNorm_nat a b ha hb]
  field_simp

theorem betaCDF_nat_monotoneOn (a b : ℕ) (ha : 1 ≤ a) (hb : 1 ≤ b) :
    MonotoneOn (betaCDF (a:ℚ) (b:ℚ)) (Icc (0:ℝ) 1) := by
  intro x hx y hy hxy
  rw [betaCDF_nat a b ha hb, betaCDF_nat a b ha hb]
  have h := intervalIntegral.integral_eq_sub_of_hasDerivAt
    (fun t (_ : t ∈ uIcc x y) => hasDerivAt_binomTail (a + b - 1) a (by omega) t)
    ((binomTermDeriv_continuous (a + b - 1) a).intervalIntegrable x y)
  have hnn : 0 ≤ ∫ t in x..y, binomTermDeriv (a + b - 1) a t := by
    apply intervalIntegral.integral_nonneg hxy
    intro u hu
    exact binomTermDeriv_nonneg _ _ (le_trans hx.1 hu.1) (le_trans hu.2 hy.2)
  linarith [h ▸ hnn]

theorem nat_cast_q_pos {a : ℕ} (ha : 1 ≤ a) : (0:ℚ) < (a : ℚ) := by
  exact_mod_cast Nat.lt_of_lt_of_le Nat.zero_lt_one ha

theorem le_betaPPF (a b : ℕ) (ha : 1 ≤ a) (hb : 1 ≤ b) {q t : ℝ} (hq : q ≤ 1)
    (ht : t ∈ Icc (0:ℝ) 1) (hlt : betaCDF (a:ℚ) (b:ℚ) t < q) :
    t ≤ betaPPF (a:ℚ) (b:ℚ) q := by
  apply le_csInf ⟨1, one_mem_ppfSet _ _ (nat_cast_q_pos ha) (nat_cast_q_pos hb) hq⟩
  intro x hx
  by_contra hcon
  push_neg at hcon
  have hmono : betaCDF (a:ℚ) (b:ℚ) x ≤ betaCDF (a:ℚ) (b:ℚ) t :=
    betaCDF_nat_monotoneOn a b ha hb hx.1 ht (le_of_lt hcon)
  have := hx.2
  linarith

theorem betaPPF_decision_true (a1 b1 a2 b2 : ℕ) (ha1 : 1 ≤ a1) (hb1 : 1 ≤ b1)
    (ha2 : 1 ≤ a2) (hb2 : 1 ≤ b2) {ql qu t1 t2 : ℝ} (hql : ql ≤ 1)
    (ht1 : t1 ∈ Icc (0:ℝ) 1) (ht2 : t2 ∈ Icc (0:ℝ) 1) (h12 : t2 < t1)
    (hc1 : betaCDF (a1:ℚ) (b1:ℚ) t1 < ql) (hc2 : qu ≤ betaCDF (a2:ℚ) (b2:ℚ) t2) :
    betaPPF (a2:ℚ) (b2:ℚ) qu < betaPPF (a1:ℚ) (b1:ℚ) ql :=
  lt_of_le_of_lt (betaPPF_le _ _ ht2 hc2)
    (lt_of_lt_of_le h12 (le_betaPPF a1 b1 ha1 hb1 hql ht1 hc1))

theorem betaPPF_decision_false (a1 b1 a2 b2 : ℕ) (ha2 : 1 ≤ a2) (hb2 : 1 ≤ b2)
    {ql qu t : ℝ} (hqu : qu ≤ 1) (ht : t ∈ Icc (0:ℝ) 1)
    (hc1 : ql ≤ betaCDF (a1:ℚ) (b1:ℚ) t) (hc2 : betaCDF (a2:ℚ) (b2:ℚ) t < qu) :
    betaPPF (a1:ℚ) (b1:ℚ) ql ≤ betaPPF (a2:ℚ) (b2:ℚ) qu :=
  le_trans (betaPPF_le _ _ ht hc1) (le_betaPPF a2 b2 ha2 hb2 hqu ht hc2)

/-! Exact rational evaluation of the closed-form CDF. -/

theorem binomTail_ratio (n a p q : ℕ) (hq : 0 < q) (hpq : p ≤ q) :
    binomTail n a ((p : ℝ) / (q : ℝ)) = (binomTailNum n a p q : ℝ) / (q : ℝ) ^ n := by
  unfold binomTail binomTailNum
  rw [Nat.cast_sum, Finset.sum_div]
  apply Finset.sum_congr rfl
  intro j hj
  have hjn : j ≤ n := (Finset.mem_Icc.mp hj).2
  have hq0 : (q : ℝ) ≠ 0 := by
    have : (0:ℝ) < (q : ℝ) := by exact_mod_cast hq
    exact ne_of_gt this
  have h1 : (1 : ℝ) - (p:ℝ)/(q:ℝ) = ((q - p : ℕ) : ℝ) / (q:ℝ) := by
    rw [Nat.cast_sub hpq]
    field_simp
  rw [h1, div_pow, div_pow, div_mul_div_comm, ← pow_add, Nat.add_sub_cancel' hjn]
  push_cast
  ring

theorem betaCDF_lt_of_num (a b p q : ℕ) (ha : 1 ≤ a) (hb : 1 ≤ b) (hq : 0 < q) (hpq : p ≤ q)
    {c : ℝ} (h : (binomTailNum (a + b - 1) a p q : ℝ) < c * (q:ℝ) ^ (a + b - 1)) :
    betaCDF (a:ℚ) (b:ℚ) ((p:ℝ)/(q:ℝ)) < c := by
  have hqR : (0:ℝ) < (q:ℝ) := by exact_mod_cast hq
  rw [betaCDF_nat a b ha hb, binomTail_ratio _ _ p q hq hpq, div_lt_iff (pow_pos hqR _)]
  exact h

theorem le_betaCDF_of_num (a b p q : ℕ) (ha : 1 ≤ a) (hb : 1 ≤ b) (hq : 0 < q) (hpq : p ≤ q)
    {c : ℝ} (h : c * (q:ℝ) ^ (a + b - 1) ≤ (binomTailNum (a + b - 1) a p q : ℝ)) :
    c ≤ betaCDF (a:ℚ) (b:ℚ) ((p:ℝ)/(q:ℝ)) := by
  have hqR : (0:ℝ) < (q:ℝ) := by exact_mod_cast hq
  rw [betaCDF_nat a b ha hb, binomTail_ratio _ _ p q hq hpq, le_div_iff (pow_pos hqR _)]
  exact h

set_option maxRecDepth 1000000

/-! Scenario A (`counts = [127, 1, 30]`, posterior `[128, 2, 31]`, total `161`):
the marginals are `Beta(128, 33)` and `Beta(31, 130)`; the 2.5% quantile of the
first strictly exceeds the 97.5% quantile of the second, witnessed by the
separating points `2/5 < 3/5`. -/

theorem cdfA_hi : betaCDF ((128:ℕ):ℚ) ((33:ℕ):ℚ) ((3:ℝ)/5) < (1:ℝ)/40 := by
  apply betaCDF_lt_of_num 128 33 3 5 (by norm_num) (by norm_num) (by norm_num) (by norm_num)
  have key : 40 * binomTailNum 160 128 3 5 < 5 ^ 160 := by decide
  have keyR : ((40 * binomTailNum 160 128 3 5 : ℕ) : ℝ) < ((5 ^ 160 : ℕ) : ℝ) := by
    exact_mod_cast key
  push_cast at keyR
  norm_num
  linarith

theorem cdfA_lo : (39:ℝ)/40 ≤ betaCDF ((31:ℕ):ℚ) ((130:ℕ):ℚ) ((2:ℝ)/5) := by
  apply le_betaCDF_of_num 31 130 2 5 (by norm_num) (by norm_num) (by norm_num) (by norm_num)
  have key : 39 * 5 ^ 160 ≤ 40 * binomTailNum 160 31 2 5 := by decide
  have keyR : ((39 * 5 ^ 160 : ℕ) : ℝ) ≤ ((40 * binomTailNum 160 31 2 5 : ℕ) : ℝ) := by
    exact_mod_cast key
  push_cast at keyR
  norm_num
  linarith

/-! Scenario C (`counts = [200, 300, 400]`, posterior `[201, 301, 401]`, total
`903`): marginals `Beta(401, 502)` and `Beta(301, 602)`; separating points
`19/50 < 2/5`. -/

theorem cdfC_hi : betaCDF ((401:ℕ):ℚ) ((502:ℕ):ℚ) ((2:ℝ)/5) < (1:ℝ)/40 := by
  apply betaCDF_lt_of_num 401 502 2 5 (by norm_num) (by norm_num) (by norm_num) (by norm_num)
  have key : 40 * binomTailNum 902 401 2 5 < 5 ^ 902 := by decide
  have keyR : ((40 * binomTailNum 902 401 2 5 : ℕ) : ℝ) < ((5 ^ 902 : ℕ) : ℝ) := by
    exact_mod_cast key
  push_cast at keyR
  norm_num
  linarith

theorem cdfC_lo : (39:ℝ)/40 ≤ betaCDF ((301:ℕ):ℚ) ((602:ℕ):ℚ) ((19:ℝ)/50) := by
  apply le_betaCDF_of_num 301 602 19 50 (by norm_num) (by norm_num) (by norm_num) (by norm_num)
  have key : 39 * 50 ^ 902 ≤ 40 * binomTailNum 902 301 19 50 := by decide
  have keyR : ((39 * 50 ^ 902 : ℕ) : ℝ) ≤ ((40 * binomTailNum 902 301 19 50 : ℕ) : ℝ) := by
    exact_mod_cast key
  push_cast at keyR
  norm_num
  linarith

/-! Scenario B (`counts = [2, 3]`, posterior `[3, 4]`, total `7`): marginals
`Beta(4, 3)` and `Beta(3, 4)`; at the 99% interval the quantile comparison
fails, witnessed by the single point `1/2` (`CDF_{4,3}(1/2) = 22/64 ≥ 0.005`
and `CDF_{3,4}(1/2) = 42/64 < 0.995`). -/

theorem cdfB_top : (1:ℝ)/200 ≤ betaCDF ((4:ℕ):ℚ) ((3:ℕ):ℚ) ((1:ℝ)/2) := by
  rw [show (1:ℝ)/2 = ((1:ℕ):ℝ)/((2:ℕ):ℝ) from by norm_num]
  apply le_betaCDF_of_num 4 3 1 2 (by norm_num) (by norm_num) (by norm_num) (by norm_num)
  have key : 1 * 2 ^ 6 ≤ 200 * binomTailNum 6 4 1 2 := by decide
  have keyR : ((1 * 2 ^ 6 : ℕ) : ℝ) ≤ ((200 * binomTailNum 6 4 1 2 : ℕ) : ℝ) := by
    exact_mod_cast key
  push_cast at keyR
  norm_num
  linarith

theorem cdfB_snd : betaCDF ((3:ℕ):ℚ) ((4:ℕ):ℚ) ((1:ℝ)/2) < (199:ℝ)/200 := by
  rw [show (1:ℝ)/2 = ((1:ℕ):ℝ)/((2:ℕ):ℝ) from by norm_num]
  apply betaCDF_lt_of_num 3 4 1 2 (by norm_num) (by norm_num) (by norm_num) (by norm_num)
  have key : 200 * binomTailNum 6 3 1 2 < 199 * 2 ^ 6 := by decide
  have keyR : ((200 * binomTailNum 6 3 1 2 : ℕ) : ℝ) < ((199 * 2 ^ 6 : ℕ) : ℝ) := by
    exact_mod_cast key
  push_cast at keyR
  norm_num
  linarith

theorem ppf_gap_A :
    betaPPF (31:ℚ) (130:ℚ) ((39:ℝ)/40) < betaPPF (128:ℚ) (33:ℚ) ((1:ℝ)/40) := by
  have h := betaPPF_decision_true 128 33 31 130 (by norm_num) (by norm_num) (by norm_num)
      (by norm_num) (by norm_num)
      (mem_Icc.mpr ⟨by norm_num, by norm_num⟩)
      (mem_Icc.mpr ⟨by norm_num, by norm_num⟩)
      (by norm_num) cdfA_hi cdfA_lo
  exact_mod_cast h

theorem ppf_gap_C :
    betaPPF (301:ℚ) (602:ℚ) ((39:ℝ)/40) < betaPPF (401:ℚ) (502:ℚ) ((1:ℝ)/40) := by
  have h := betaPPF_decision_true 401 502 301 602 (by norm_num) (by norm_num) (by norm_num)
      (by norm_num) (by norm_num)
      (mem_Icc.mpr ⟨by norm_num, by norm_num⟩)
      (mem_Icc.mpr ⟨by norm_num, by norm_num⟩)
      (by norm_num) cdfC_hi cdfC_lo
  exact_mod_cast h

theorem ppf_gap_B :
    betaPPF (4:ℚ) (3:ℚ) ((1:ℝ)/200) ≤ betaPPF (3:ℚ) (4:ℚ) ((199:ℝ)/200) := by
  have h := betaPPF_decision_false 4 3 3 4 (by norm_num) (by norm_num) (by norm_num)
      (mem_Icc.mpr ⟨by norm_num, by norm_num⟩) cdfB_top cdfB_snd
  exact_mod_cast h

/-! Structural lemmas about `kth_largest` and the posterior. -/

theorem kth_largest_mem {α : Type} [LinearOrder α] {a : List α} {k : ℕ} {m : α}
    (h : kth_largest a k = some m) : m ∈ a := by
  simp only [kth_largest] at h
  split at h
  · obtain ⟨hlt, he⟩ := List.getElem?_eq_some.mp h
    rw [← he] at *
    exact (List.mem_insertionSort (fun x y => x ≤ y)).mp (List.getElem_mem hlt)
  · split at h
    · obtain ⟨hlt, he⟩ := List.getElem?_eq_some.mp h
      rw [← he] at *
      exact (List.mem_insertionSort (fun x y => x ≤ y)).mp (List.getElem_mem hlt)
    · exact absurd h (by simp)

theorem kth_largest_some_len {α : Type} [LinearOrder α] {a : List α} {k : ℕ} {m : α}
    (hk : k ≠ 0) (h : kth_largest a k = some m) : k ≤ a.length := by
  unfold kth_largest at h
  rw [if_neg hk] at h
  by_contra hcon
  rw [List.length_insertionSort] at h
  rw [if_neg hcon] at h
  exact absurd h (by simp)

theorem posterior_counts_all_pos (rc : List ℕ) : ∀ x ∈ posterior_counts rc, 1 ≤ x := by
  intro x hx
  unfold posterior_counts at hx
  obtain ⟨c, _, hc⟩ := List.mem_map.mp hx
  omega

theorem posterior_counts_length (rc : List ℕ) : (posterior_counts rc).length = rc.length :=
  List.length_map rc _

theorem sum_lower_bound {l : List ℕ} (hall : ∀ x ∈ l, 1 ≤ x) (hlen : 2 ≤ l.length)
    {m : ℕ} (hm : m ∈ l) : m + 1 ≤ l.sum := by
  have hperm := List.perm_cons_erase hm
  rw [List.Perm.sum_eq hperm, List.sum_cons]
  have hlen2 : 1 ≤ (l.erase m).length := by
    rw [List.length_erase_of_mem hm]
    omega
  have hpos : 0 < (l.erase m).length := by omega
  obtain ⟨y, hy⟩ := List.exists_mem_of_length_pos hpos
  have hy1 : 1 ≤ y := hall y (List.mem_of_mem_erase hy)
  have hysum : y ≤ (l.erase m).sum := List.single_le_sum (fun x _ => Nat.zero_le x) y hy
  omega

open Classical in
theorem keep_largest_test_eq (rc : List ℕ) (m1 m2 : ℕ)
    (h1 : kth_largest (posterior_counts rc) 1 = some m1)
    (h2 : kth_largest (posterior_counts rc) 2 = some m2) :
    keep_largest_test rc =
      if betaPPF (m1:ℚ) (((posterior_counts rc).sum : ℚ) - (m1:ℚ)) (0.025:ℝ)
          > betaPPF (m2:ℚ) (((posterior_counts rc).sum : ℚ) - (m2:ℚ)) (0.975:ℝ)
        then .ok true else .ok false := by
  simp only [keep_largest_test]
  rw [h1, h2]

/-- C1: for every valid input with at least two categories, `keep_largest_test`
returns `true` if and only if the lower (2.5%) quantile bound of the marginal
Beta distribution of the largest posterior concentration strictly exceeds the
upper (97.5%) quantile bound of the marginal of the second-largest posterior
concentration, and returns `false` otherwise. -/
theorem keep_largest_test_decision (rc : List ℕ) (m1 m2 : ℕ) (hn : 2 ≤ rc.length)
    (h1 : kth_largest (posterior_counts rc) 1 = some m1)
    (h2 : kth_largest (posterior_counts rc) 2 = some m2) :
    (keep_largest_test rc = .ok true ↔
      betaPPF (m1:ℚ) (((posterior_counts rc).sum : ℚ) - (m1:ℚ)) (0.025:ℝ)
        > betaPPF (m2:ℚ) (((posterior_counts rc).sum : ℚ) - (m2:ℚ)) (0.975:ℝ))
    ∧ (keep_largest_test rc = .ok false ↔
      ¬ betaPPF (m1:ℚ) (((posterior_counts rc).sum : ℚ) - (m1:ℚ)) (0.025:ℝ)
        > betaPPF (m2:ℚ) (((posterior_counts rc).sum : ℚ) - (m2:ℚ)) (0.975:ℝ)) := by
  rw [keep_largest_test_eq rc m1 m2 h1 h2]
  by_cases hc : betaPPF (m1:ℚ) (((posterior_counts rc).sum : ℚ) - (m1:ℚ)) (0.025:ℝ)
      > betaPPF (m2:ℚ) (((posterior_counts rc).sum : ℚ) - (m2:ℚ)) (0.975:ℝ)
  · constructor
    · simp [hc]
    · simp [hc]
  · constructor
    · simp [hc]
    · simp [hc]

theorem keep_largest_test_decision_witness :
    2 ≤ ([2, 3] : List ℕ).length ∧
    kth_largest (posterior_counts [2, 3]) 1 = some 4 ∧
    kth_largest (posterior_counts [2, 3]) 2 = some 3 ∧
    ((keep_largest_test [2, 3] = .ok true ↔
      betaPPF ((4:ℕ):ℚ) (((posterior_counts [2, 3]).sum : ℚ) - ((4:ℕ):ℚ)) (0.025:ℝ)
        > betaPPF ((3:ℕ):ℚ) (((posterior_counts [2, 3]).sum : ℚ) - ((3:ℕ):ℚ)) (0.975:ℝ))
    ∧ (keep_largest_test [2, 3] = .ok false ↔
      ¬ betaPPF ((4:ℕ):ℚ) (((posterior_counts [2, 3]).sum : ℚ) - ((4:ℕ):ℚ)) (0.025:ℝ)
        > betaPPF ((3:ℕ):ℚ) (((posterior_counts [2, 3]).sum : ℚ) - ((3:ℕ):ℚ)) (0.975:ℝ))) :=
  ⟨by decide, by decide, by decide,
    keep_largest_test_decision [2, 3] 4 3 (by decide) (by decide) (by decide)⟩

/-- C10 (implicit): whenever the largest and second-largest posterior
concentration values coincide, `keep_largest_test` returns `false` — the two
marginal Beta distributions are identical and the 2.5% quantile of a
distribution never strictly exceeds its own 97.5% quantile. -/
theorem keep_largest_test_tie (rc : List ℕ) (m : ℕ)
    (h1 : kth_largest (posterior_counts rc) 1 = some m)
    (h2 : kth_largest (posterior_counts rc) 2 = some m) :
    keep_largest_test rc = .ok false := by
  have hmem := kth_largest_mem h1
  have hall := posterior_counts_all_pos rc
  have hm1 : 1 ≤ m := hall m hmem
  have hlen : 2 ≤ (posterior_counts rc).length := kth_largest_some_len (by omega) h2
  have hsum := sum_lower_bound hall hlen hmem
  have hb : (0:ℚ) < ((posterior_counts rc).sum : ℚ) - (m:ℚ) := by
    have hc : (m:ℚ) + 1 ≤ ((posterior_counts rc).sum : ℚ) := by exact_mod_cast hsum
    linarith
  have hle : betaPPF (m:ℚ) (((posterior_counts rc).sum : ℚ) - (m:ℚ)) (0.025:ℝ)
      ≤ betaPPF (m:ℚ) (((posterior_counts rc).sum : ℚ) - (m:ℚ)) (0.975:ℝ) :=
    betaPPF_q_mono _ _ (nat_cast_q_pos hm1) hb (by norm_num) (by norm_num)
  rw [keep_largest_test_eq rc m m h1 h2, if_neg (not_lt.mpr hle)]

theorem keep_largest_test_tie_witness :
    kth_largest (posterior_counts [10, 10]) 1 = some 11 ∧
    kth_largest (posterior_counts [10, 10]) 2 = some 11 ∧
    keep_largest_test [10, 10] = .ok false :=
  ⟨by decide, by decide, keep_largest_test_tie [10, 10] 11 (by decide) (by decide)⟩

open Classical in
theorem keep_top_category_eq (counts : List ℤ) (prior : Option (List ℚ)) (q1 q2 : ℚ)
    (post : List ℚ) (m1 m2 : ℚ)
    (hpost : compute_posterior counts prior = .ok post)
    (h1 : kth_largest post 1 = some m1) (h2 : kth_largest post 2 = some m2)
    (hq : 0 < q1 ∧ q1 < q2 ∧ q2 < 1) :
    keep_top_category counts prior (q1, q2) =
      if betaPPF m1 (post.sum - m1) ((q1 : ℝ)) > betaPPF m2 (post.sum - m2) ((q2 : ℝ))
      then .ok true else .ok false := by
  simp only [keep_top_category, hpost, h1, h2, credible_interval]
  rw [if_pos hq, if_pos hq]

theorem compute_posterior_A : compute_posterior [127, 1, 30] none = .ok [128, 2, 31] := by
  simp only [compute_posterior]
  rw [if_pos (by decide)]
  norm_num [List.zipWith]

/-- C3: with the prior omitted a default prior of n ones is used, so for
`counts = [127, 1, 30]` the posterior concentration vector is `[128, 2, 31]`,
and the top-category decision at the (0.025, 0.975) quantiles returns `true`,
both for the spec's `keep_top_category` and for the notebook's fixed-quantile
`keep_largest_test`. -/
theorem scenarioA_decision :
    compute_posterior [127, 1, 30] none = .ok [128, 2, 31] ∧
    keep_top_category [127, 1, 30] none (1/40, 39/40) = .ok true ∧
    keep_largest_test [127, 1, 30] = .ok true := by
  refine ⟨compute_posterior_A, ?_, ?_⟩
  · have hgt : betaPPF (128:ℚ) (([128, 2, 31] : List ℚ).sum - 128) (((1/40 : ℚ)) : ℝ)
        > betaPPF (31:ℚ) (([128, 2, 31] : List ℚ).sum - 31) (((39/40 : ℚ)) : ℝ) := by
      rw [show (([128, 2, 31] : List ℚ).sum - 128) = (33:ℚ) from by norm_num,
          show (([128, 2, 31] : List ℚ).sum - 31) = (130:ℚ) from by norm_num,
          show (((1/40 : ℚ)) : ℝ) = (1:ℝ)/40 from by norm_num,
          show (((39/40 : ℚ)) : ℝ) = (39:ℝ)/40 from by norm_num]
      exact ppf_gap_A
    rw [keep_top_category_eq _ _ _ _ [128, 2, 31] 128 31 compute_posterior_A
        (by decide) (by decide) (by norm_num), if_pos hgt]
  · have hgt : betaPPF ((128:ℕ):ℚ) (((posterior_counts [127, 1, 30]).sum : ℚ) - ((128:ℕ):ℚ)) (0.025:ℝ)
        > betaPPF ((31:ℕ):ℚ) (((posterior_counts [127, 1, 30]).sum : ℚ) - ((31:ℕ):ℚ)) (0.975:ℝ) := by
      rw [show ((posterior_counts [127, 1, 30]).sum : ℚ) = 161 from by norm_num [posterior_counts],
          show ((128:ℕ):ℚ) = (128:ℚ) from by norm_num,
          show ((31:ℕ):ℚ) = (31:ℚ) from by norm_num,
          show (0.025:ℝ) = (1:ℝ)/40 from by norm_num,
          show (0.975:ℝ) = (39:ℝ)/40 from by norm_num,
          show (161:ℚ) - 128 = 33 from by norm_num,
          show (161:ℚ) - 31 = 130 from by norm_num]
      exact ppf_gap_A
    rw [keep_largest_test_eq [127, 1, 30] 128 31 (by decide) (by decide), if_pos hgt]

theorem compute_posterior_C : compute_posterior [200, 300, 400] none = .ok [201, 301, 401] := by
  simp only [compute_posterior]
  rw [if_pos (by decide)]
  norm_num [List.zipWith]

/-- C5: for `counts = [200, 300, 400]` with the default prior the posterior
concentration is `[201, 301, 401]`, and the top-category decision at the
(0.025, 0.975) quantiles returns `true`, both for the spec's
`keep_top_category` and for the notebook's `keep_largest_test` (the invocation
actually executed in the notebook). -/
theorem scenarioC_decision :
    compute_posterior [200, 300, 400] none = .ok [201, 301, 401] ∧
    keep_top_category [200, 300, 400] none (1/40, 39/40) = .ok true ∧
    keep_largest_test [200, 300, 400] = .ok true := by
  refine ⟨compute_posterior_C, ?_, ?_⟩
  · have hgt : betaPPF (401:ℚ) (([201, 301, 401] : List ℚ).sum - 401) (((1/40 : ℚ)) : ℝ)
        > betaPPF (301:ℚ) (([201, 301, 401] : List ℚ).sum - 301) (((39/40 : ℚ)) : ℝ) := by
      rw [show (([201, 301, 401] : List ℚ).sum - 401) = (502:ℚ) from by norm_num,
          show (([201, 301, 401] : List ℚ).sum - 301) = (602:ℚ) from by norm_num,
          show (((1/40 : ℚ)) : ℝ) = (1:ℝ)/40 from by norm_num,
          show (((39/40 : ℚ)) : ℝ) = (39:ℝ)/40 from by norm_num]
      exact ppf_gap_C
    rw [keep_top_category_eq _ _ _ _ [201, 301, 401] 401 301 compute_posterior_C
        (by decide) (by decide) (by norm_num), if_pos hgt]
  · have hgt : betaPPF ((401:ℕ):ℚ) (((posterior_counts [200, 300, 400]).sum : ℚ) - ((401:ℕ):ℚ)) (0.025:ℝ)
        > betaPPF ((301:ℕ):ℚ) (((posterior_counts [200, 300, 400]).sum : ℚ) - ((301:ℕ):ℚ)) (0.975:ℝ) := by
      rw [show ((posterior_counts [200, 300, 400]).sum : ℚ) = 903 from by norm_num [posterior_counts],
          show ((401:ℕ):ℚ) = (401:ℚ) from by norm_num,
          show ((301:ℕ):ℚ) = (301:ℚ) from by norm_num,
          show (0.025:ℝ) = (1:ℝ)/40 from by norm_num,
          show (0.975:ℝ) = (39:ℝ)/40 from by norm_num,
          show (903:ℚ) - 401 = 502 from by norm_num,
          show (903:ℚ) - 301 = 602 from by norm_num]
      exact ppf_gap_C
    rw [keep_largest_test_eq [200, 300, 400] 401 301 (by decide) (by decide), if_pos hgt]

theorem compute_posterior_B : compute_posterior [2, 3] none = .ok [3, 4] := by
  simp only [compute_posterior]
  rw [if_pos (by decide)]
  norm_num [List.zipWith]

/-- C6: `keep_top_category` accepts a configurable pair of quantile levels;
for `counts = [2, 3]` with the default prior (posterior `[3, 4]`) it returns
`false` at the 99% interval quantiles (0.005, 0.995) — the credible intervals
of `Beta(4, 3)` and `Beta(3, 4)` overlap. -/
theorem scenarioB_decision :
    compute_posterior [2, 3] none = .ok [3, 4] ∧
    keep_top_category [2, 3] none (1/200, 199/200) = .ok false := by
  refine ⟨compute_posterior_B, ?_⟩
  have hle : betaPPF (4:ℚ) (([3, 4] : List ℚ).sum - 4) (((1/200 : ℚ)) : ℝ)
      ≤ betaPPF (3:ℚ) (([3, 4] : List ℚ).sum - 3) (((199/200 : ℚ)) : ℝ) := by
    rw [show (([3, 4] : List ℚ).sum - 4) = (3:ℚ) from by norm_num,
        show (([3, 4] : List ℚ).sum - 3) = (4:ℚ) from by norm_num,
        show (((1/200 : ℚ)) : ℝ) = (1:ℝ)/200 from by norm_num,
        show (((199/200 : ℚ)) : ℝ) = (199:ℝ)/200 from by norm_num]
    exact ppf_gap_B
  rw [keep_top_category_eq _ _ _ _ [3, 4] 4 3 compute_posterior_B
      (by decide) (by decide) (by norm_num), if_neg (not_lt.mpr hle)]

/-- C2: for every counts vector and prior vector of equal positive length n
that pass validation, `compute_posterior` returns a vector of length n whose
i-th entry equals `prior[i] + counts[i]` exactly; being a pure function of its
arguments, it has no side effects. -/
theorem compute_posterior_spec (counts : List ℤ) (prior : List ℚ)
    (hlen : prior.length = counts.length) (hn : counts.length ≠ 0)
    (hc : ∀ c ∈ counts, 0 ≤ c) (hp : ∀ a ∈ prior, 0 < a) :
    ∃ post, compute_posterior counts (some prior) = .ok post ∧
      post.length = counts.length ∧
      ∀ i, i < counts.length →
        ∃ pi ci, prior[i]? = some pi ∧ counts[i]? = some ci ∧ post[i]? = some (pi + (ci : ℚ)) := by
  refine ⟨List.zipWith (fun (a : ℚ) (c : ℤ) => a + (c : ℚ)) prior counts, ?_, ?_, ?_⟩
  · simp only [compute_posterior, Option.getD]
    rw [if_pos ⟨hlen, hn, hc, hp⟩]
  · rw [List.length_zipWith, hlen]
    omega
  · intro i hi
    have hi1 : i < prior.length := by omega
    refine ⟨prior.get ⟨i, hi1⟩, counts.get ⟨i, hi⟩, ?_, ?_, ?_⟩
    · rw [List.getElem?_eq_getElem hi1]
      simp
    · rw [List.getElem?_eq_getElem hi]
      simp
    · rw [List.getElem?_zipWith, List.getElem?_eq_getElem hi1, List.getElem?_eq_getElem hi]
      simp

theorem compute_posterior_spec_witness :
    (([1, 1, 1] : List ℚ).length = ([127, 1, 30] : List ℤ).length) ∧
    ([127, 1, 30] : List ℤ).length ≠ 0 ∧
    (∀ c ∈ ([127, 1, 30] : List ℤ), 0 ≤ c) ∧
    (∀ a ∈ ([1, 1, 1] : List ℚ), 0 < a) ∧
    (∃ post, compute_posterior [127, 1, 30] (some [1, 1, 1]) = .ok post ∧
      post.length = ([127, 1, 30] : List ℤ).length ∧
      ∀ i, i < ([127, 1, 30] : List ℤ).length →
        ∃ pi ci, ([1, 1, 1] : List ℚ)[i]? = some pi ∧ ([127, 1, 30] : List ℤ)[i]? = some ci ∧
          post[i]? = some (pi + (ci : ℚ))) :=
  ⟨by decide, by decide, by decide, by decide,
    compute_posterior_spec [127, 1, 30] [1, 1, 1] (by decide) (by decide) (by decide) (by decide)⟩

/-- C4: for every valid posterior concentration vector and in-range category
index, the marginal Beta descriptor has `a = posterior[i]` and
`b = sum(posterior) - posterior[i]`, so `a + b` equals the total posterior
mass `sum(posterior)` — the same constant for every choice of `i`. -/
theorem marginal_for_category_mass (post : List ℚ) (index : ℕ) (hi : index < post.length) :
    ∃ m, marginal_for_category post index = .ok m ∧
      m.a = post.get ⟨index, hi⟩ ∧ m.b = post.sum - post.get ⟨index, hi⟩ ∧
      m.a + m.b = post.sum := by
  refine ⟨⟨post.get ⟨index, hi⟩, post.sum - post.get ⟨index, hi⟩⟩, ?_, rfl, rfl, by ring⟩
  simp only [marginal_for_category]
  rw [dif_pos hi]

theorem marginal_for_category_mass_witness :
    0 < ([3, 4] : List ℚ).length ∧
    (∃ m, marginal_for_category [3, 4] 0 = .ok m ∧
      m.a = ([3, 4] : List ℚ).get ⟨0, by decide⟩ ∧
      m.b = ([3, 4] : List ℚ).sum - ([3, 4] : List ℚ).get ⟨0, by decide⟩ ∧
      m.a + m.b = ([3, 4] : List ℚ).sum) :=
  ⟨by decide, marginal_for_category_mass [3, 4] 0 (by decide)⟩

/-- C8: `compute_posterior` fails with `InvalidInputError` whenever the prior
and counts lengths differ, the number of categories is zero, any count is
negative, or any prior entry is non-positive; no posterior vector is produced
on any such input. -/
theorem compute_posterior_invalid (counts : List ℤ) (prior : List ℚ)
    (h : prior.length ≠ counts.length ∨ counts.length = 0 ∨
      (∃ c ∈ counts, c < 0) ∨ (∃ a ∈ prior, a ≤ 0)) :
    compute_posterior counts (some prior) = .error .invalidInput := by
  simp only [compute_posterior, Option.getD]
  rw [if_neg]
  intro hcon
  obtain ⟨h1, h2, h3, h4⟩ := hcon
  rcases h with h | h | h | h
  · exact h h1
  · exact h2 h
  · obtain ⟨c, hc, hneg⟩ := h
    exact absurd (h3 c hc) (not_le.mpr hneg)
  · obtain ⟨a, ha, hpos⟩ := h
    exact absurd (h4 a ha) (not_lt.mpr hpos)

theorem compute_posterior_invalid_witness :
    (∃ a ∈ ([1, 1, -1] : List ℚ), a ≤ 0) ∧
    compute_posterior [127, 1, 30] (some [1, 1, -1]) = .error .invalidInput :=
  ⟨by decide, compute_posterior_invalid [127, 1, 30] [1, 1, -1] (by decide)⟩

/-- C9: for every marginal Beta descriptor with positive shape parameters and
every quantile pair with `0 < lower < upper < 1`, the credible interval
satisfies `0 ≤ lower ≤ upper ≤ 1`. -/
theorem credible_interval_bounds (marginal : MarginalDistribution) (quantiles : ℚ × ℚ)
    (ha : 0 < marginal.a) (hb : 0 < marginal.b)
    (h1 : 0 < quantiles.1) (h2 : quantiles.1 < quantiles.2) (h3 : quantiles.2 < 1) :
    ∃ lo hi, credible_interval marginal quantiles = .ok (lo, hi) ∧
      0 ≤ lo ∧ lo ≤ hi ∧ hi ≤ 1 := by
  refine ⟨betaPPF marginal.a marginal.b ((quantiles.1 : ℝ)),
          betaPPF marginal.a marginal.b ((quantiles.2 : ℝ)), ?_, betaPPF_nonneg _ _ _, ?_, ?_⟩
  · simp only [credible_interval]
    rw [if_pos ⟨h1, h2, h3⟩]
  · apply betaPPF_q_mono _ _ ha hb
    · exact_mod_cast le_of_lt h2
    · exact_mod_cast le_of_lt h3
  · exact betaPPF_le_one _ _ ha hb (by exact_mod_cast le_of_lt h3)

theorem credible_interval_bounds_witness :
    (0:ℚ) < (MarginalDistribution.mk 3 4).a ∧ (0:ℚ) < (MarginalDistribution.mk 3 4).b ∧
    (0:ℚ) < ((1/40 : ℚ), (39/40 : ℚ)).1 ∧
    ((1/40 : ℚ), (39/40 : ℚ)).1 < ((1/40 : ℚ), (39/40 : ℚ)).2 ∧
    ((1/40 : ℚ), (39/40 : ℚ)).2 < 1 ∧
    (∃ lo hi, credible_interval (MarginalDistribution.mk 3 4) ((1/40 : ℚ), (39/40 : ℚ)) = .ok (lo, hi) ∧
      0 ≤ lo ∧ lo ≤ hi ∧ hi ≤ 1) :=
  ⟨by norm_num, by norm_num, by norm_num, by norm_num, by norm_num,
    credible_interval_bounds (MarginalDistribution.mk 3 4) ((1/40 : ℚ), (39/40 : ℚ))
      (by norm_num) (by norm_num) (by norm_num) (by norm_num) (by norm_num)⟩

theorem compute_posterior_error_inv {counts : List ℤ} {prior : Option (List ℚ)} {e : Err}
    (h : compute_posterior counts prior = .error e) : e = .invalidInput := by
  simp only [compute_posterior] at h
  split at h
  · exact Except.noConfusion h
  · injection h with h'
    exact h'.symm

theorem compute_posterior_ok_length {counts : List ℤ} {prior : Option (List ℚ)} {post : List ℚ}
    (h : compute_posterior counts prior = .ok post) : post.length = counts.length := by
  simp only [compute_posterior] at h
  split at h
  · rename_i hcond
    injection h with h'
    rw [← h', List.length_zipWith, hcond.1]
    exact min_self _
  · exact Except.noConfusion h

/-- C7: for every single-category input (counts of length 1, e.g. `[5]`),
`keep_top_category` fails with `InvalidInputError` — there is no runner-up to
compare against — rather than returning a boolean or failing with any other
error, regardless of the prior and quantile arguments. -/
theorem keep_top_category_single (counts : List ℤ) (prior : Option (List ℚ))
    (quantiles : ℚ × ℚ) (hn : counts.length = 1) :
    keep_top_category counts prior quantiles = .error .invalidInput := by
  cases hcp : compute_posterior counts prior with
  | error e =>
    have he : e = .invalidInput := compute_posterior_error_inv hcp
    subst he
    simp only [keep_top_category, hcp]
  | ok post =>
    have hlen : post.length = 1 := by rw [compute_posterior_ok_length hcp, hn]
    have h2 : kth_largest post 2 = none := by
      simp only [kth_largest]
      rw [if_neg (by omega : ¬(2:ℕ) = 0), List.length_insertionSort, hlen,
          if_neg (by omega : ¬(2:ℕ) ≤ 1)]
    cases h1 : kth_largest post 1 with
    | none => simp only [keep_top_category, hcp, h1, h2]
    | some m => simp only [keep_top_category, hcp, h1, h2]

theorem keep_top_category_single_witness :
    ([5] : List ℤ).length = 1 ∧
    keep_top_category [5] none (1/40, 39/40) = .error .invalidInput :=
  ⟨by decide, keep_top_category_single [5] none (1/40, 39/40) (by decide)⟩

/-- Supporting observation: the notebook's own `keep_largest_test` on a
single-category input fails with an index error (from `np.sort(a)[-2]` on a
one-element array), not with the spec's `InvalidInputError`; the validation is
spec-added behavior. -/
theorem keep_largest_test_single : keep_largest_test [5] = .error .indexError := by
  have h1 : kth_largest (posterior_counts [5]) 1 = some 6 := by decide
  have h2 : kth_largest (posterior_counts [5]) 2 = none := by decide
  simp only [keep_largest_test, h1, h2]

/-! Refinement: on every integer counts vector with at least two categories,
the spec-modelled `keep_top_category` at its default arguments (no prior,
quantiles (0.025, 0.975)) computes exactly the notebook's
`keep_largest_test`. -/

theorem kth_largest_isSome {α : Type} [LinearOrder α] (a : List α) (k : ℕ)
    (hk : 1 ≤ k) (hka : k ≤ a.length) : ∃ m, kth_largest a k = some m := by
  simp only [kth_largest]
  rw [if_neg (by omega : ¬ k = 0), List.length_insertionSort, if_pos hka]
  have hlt : a.length - k < (List.insertionSort (fun x y => x ≤ y) a).length := by
    rw [List.length_insertionSort]
    omega
  exact ⟨_, List.getElem?_eq_getElem hlt⟩

theorem zipWith_replicate_left {α β γ : Type} (f : α → β → γ) (x : α) (l : List β) :
    List.zipWith f (List.replicate l.length x) l = l.map (f x) := by
  induction l with
  | nil => rfl
  | cons b t ih => simp [List.replicate_succ, ih]

theorem compute_posterior_default (rc : List ℕ) (hn : rc.length ≠ 0) :
    compute_posterior (rc.map (fun (c : ℕ) => (c : ℤ))) none
      = .ok ((posterior_counts rc).map (fun (m : ℕ) => (m : ℚ))) := by
  simp only [compute_posterior, Option.getD]
  rw [if_pos]
  · rw [zipWith_replicate_left, List.map_map]
    simp only [posterior_counts, List.map_map]
    congr 1
    apply List.map_congr_left
    intro c _
    simp only [Function.comp]
    push_cast
    ring
  · refine ⟨by rw [List.length_map, List.length_replicate], by rwa [List.length_map], ?_, ?_⟩
    · intro c hc
      obtain ⟨c0, _, hc0⟩ := List.mem_map.mp hc
      omega
    · intro a ha
      rw [List.mem_replicate] at ha
      rw [ha.2]
      norm_num

theorem orderedInsert_map_cast (m : ℕ) (l : List ℕ) :
    List.orderedInsert (fun x y => x ≤ y) ((m : ℚ)) (l.map (fun (k : ℕ) => (k : ℚ)))
      = (List.orderedInsert (fun x y => x ≤ y) m l).map (fun (k : ℕ) => (k : ℚ)) := by
  induction l with
  | nil => rfl
  | cons b t ih =>
    simp only [List.map_cons, List.orderedInsert]
    by_cases h : m ≤ b
    · rw [if_pos (by exact_mod_cast h : (m:ℚ) ≤ (b:ℚ)), if_pos h, List.map_cons, List.map_cons]
    · rw [if_neg (by exact_mod_cast h : ¬ (m:ℚ) ≤ (b:ℚ)), if_neg h, List.map_cons, ih]

theorem insertionSort_map_cast (l : List ℕ) :
    List.insertionSort (fun x y => x ≤ y) (l.map (fun (m : ℕ) => (m : ℚ)))
      = (List.insertionSort (fun x y => x ≤ y) l).map (fun (m : ℕ) => (m : ℚ)) := by
  induction l with
  | nil => rfl
  | cons b t ih =>
    simp only [List.map_cons, List.insertionSort, ih]
    exact orderedInsert_map_cast b _

theorem kth_largest_map_cast (l : List ℕ) (k : ℕ) :
    kth_largest (l.map (fun (m : ℕ) => (m : ℚ))) k
      = Option.map (fun (m : ℕ) => (m : ℚ)) (kth_largest l k) := by
  simp only [kth_largest, insertionSort_map_cast, List.length_map]
  split
  · rw [List.getElem?_map]
  · split
    · rw [List.getElem?_map]
    · rfl

open Classical in
theorem keep_top_category_refines_source (rc : List ℕ) (hn : 2 ≤ rc.length) :
    keep_top_category (rc.map (fun (c : ℕ) => (c : ℤ))) none (1/40, 39/40)
      = keep_largest_test rc := by
  have hpost := compute_posterior_default rc (by omega)
  have hlen : (posterior_counts rc).length = rc.length := posterior_counts_length rc
  obtain ⟨m1, h1⟩ := kth_largest_isSome (posterior_counts rc) 1 (by omega) (by omega)
  obtain ⟨m2, h2⟩ := kth_largest_isSome (posterior_counts rc) 2 (by omega) (by omega)
  have h1q : kth_largest ((posterior_counts rc).map (fun (m : ℕ) => (m : ℚ))) 1 = some ((m1 : ℚ)) := by
    rw [kth_largest_map_cast, h1]
    rfl
  have h2q : kth_largest ((posterior_counts rc).map (fun (m : ℕ) => (m : ℚ))) 2 = some ((m2 : ℚ)) := by
    rw [kth_largest_map_cast, h2]
    rfl
  rw [keep_top_category_eq _ _ _ _ _ _ _ hpost h1q h2q (by norm_num)]
  rw [keep_largest_test_eq rc m1 m2 h1 h2]
  rw [show ((posterior_counts rc).map (fun (m : ℕ) => (m : ℚ))).sum = ((posterior_counts rc).sum : ℚ)
        from (Nat.cast_list_sum (posterior_counts rc)).symm,
      show (((1/40 : ℚ)) : ℝ) = (0.025 : ℝ) from by norm_num,
      show (((39/40 : ℚ)) : ℝ) = (0.975 : ℝ) from by norm_num]
